import Mathlib

/-!
Shallow embedding of the `zk` crate's R1CS / Assignments binary codec
(`src/r1cs/encoding.rs` and `src/r1cs/mod.rs`).

Modelling conventions:
* Bytes are `Nat` (a real byte stream has every element `< 256`; the
  encoders below only ever emit bytes `< 256`).
* Rust `usize`/`u64` values are `Nat`, `i64` values are `Int`; wherever the
  Rust code can overflow or reinterpret a bit pattern we insert explicit
  `% 2^64` / two's-complement conversions, following the wrapping semantics
  of compiled (release) Rust: arithmetic wraps modulo `2^64` and a shift
  amount is masked modulo the bit width.
* A nom parser `&[u8] -> IResult<&[u8], T>` becomes
  `List Nat → Except DErr (T × List Nat)` returning the parsed value and the
  remaining input.  `DErr.incomplete` models `nom::Err::Incomplete`
  (truncated input), `DErr.error` models `nom::Err::Error` (tag mismatch,
  `expr_res!` failure), and `DErr.crash` models a Rust panic escaping the
  parser (the slice-index-out-of-range panic in `Header::from_file`).
-/

deriving instance DecidableEq for Except

namespace ZK

/-- Decode failure outcomes.  `incomplete` = `nom::Err::Incomplete` (the
buffer ended too early), `error` = `nom::Err::Error` (bad tag / failed
`expr_res!`), `crash` = a Rust panic (out-of-bounds slice index), which in
the real program aborts instead of returning an error. -/
inductive DErr where
  | incomplete
  | error
  | crash
deriving DecidableEq, Repr

/-- A byte-stream parser: input bytes to (value, remaining input) or a
decode failure. -/
abbrev P (α : Type) := List Nat → Except DErr (α × List Nat)

/-- Sequencing of parsers (the `>>` chaining inside nom `do_parse!`). -/
def pbind {α β : Type} (p : P α) (f : α → P β) : P β := fun input =>
  match p input with
  | .ok (a, rest) => f a rest
  | .error e => .error e

/-- A parser returning a value without consuming input. -/
def ppure {α : Type} (a : α) : P α := fun input => .ok (a, input)

/-- The byte-emission loop shared verbatim by `usize_to_bits` and (after
zigzag) `i64_to_bits`:
`while n > 127 { res.push((1 << 7) | (n & 127) as u8); n >>= 7; }
 res.push((n & 127) as u8);`
(`n & 127 = n % 128`, `n >> 7 = n / 128`). -/
def nat_to_bits (n : Nat) : List Nat :=
  if 127 < n then (128 ||| (n % 128)) :: nat_to_bits (n / 128)
  else [n &&& 127]
termination_by n
decreasing_by
  exact Nat.div_lt_self (by omega) (by omega)

/-- The `usize_to_bits` from `src/r1cs/encoding.rs`: LEB128-style emission of an
unsigned integer, 7 bits per byte, little-endian groups, MSB = continuation. -/
def usize_to_bits (n : Nat) : List Nat := nat_to_bits n

/-- The `as u64` reinterpretation of an `i64` value: its two's-complement bit
pattern, i.e. the representative of `n` modulo `2^64` in `[0, 2^64)`. -/
def u64ofInt (n : Int) : Nat := (n % ((2 : Int) ^ 64)).toNat

/-- The `as i64` reinterpretation of a `u64` bit pattern `u < 2^64`. -/
def i64ofU64 (u : Nat) : Int :=
  if u < 2 ^ 63 then (u : Int) else (u : Int) - 2 ^ 64

/-- Wrapping (release-mode) `i64` arithmetic: reduce an ideal integer result
to the `i64` value with the same bit pattern. -/
def wrapI64 (n : Int) : Int := i64ofU64 (u64ofInt n)

/-- The `i64_to_bits` from `src/r1cs/encoding.rs`:
`let mut n: u64 = ((n << 1) ^ (n >> 63)) as u64;` followed by the same
emission loop as `usize_to_bits`.  `n << 1` on `i64` has bit pattern
`2n mod 2^64`; `n >> 63` is the arithmetic shift, i.e. floor division by
`2^63`; `^` of two `i64`s XORs their bit patterns. -/
def i64_to_bits (n : Int) : List Nat :=
  nat_to_bits (u64ofInt (n * 2) ^^^ u64ofInt (Int.fdiv n (2 ^ 63)))

/-- The byte-consumption phase of the `vlusize` / `vli64` bit parsers:
`many_till!(tag_bits 1 >> take_bits 7, tag_bits 0 >> take_bits 7)` — take the
low 7 bits of every byte whose MSB is set, stopping at (and including) the
first byte with MSB clear; running out of bytes first is `Incomplete`. -/
def takeGroups : List Nat → Except DErr ((List Nat × Nat) × List Nat)
  | [] => .error .incomplete
  | b :: rest =>
    if b.testBit 7 then
      match takeGroups rest with
      | .ok ((gs, fin), rem) => .ok (((b &&& 127) :: gs, fin), rem)
      | .error e => .error e
    else .ok (([], b &&& 127), rest)

/-- The accumulation loop of `bits_to_usize` / `bits_to_i64`:
`res += (b as u64) << shift; shift += 7;` over the continuation groups, then
once more for the final group.  No overflow check exists in the source: in
release Rust the shift amount is masked modulo 64 and the addition wraps
modulo `2^64`, which is what the explicit `% 64` / `% 2^64` encode. -/
def accum : List Nat → Nat → Nat → Nat → Nat
  | [], fin, res, shift => (res + (fin <<< (shift % 64)) % 2 ^ 64) % 2 ^ 64
  | g :: gs, fin, res, shift =>
      accum gs fin ((res + (g <<< (shift % 64)) % 2 ^ 64) % 2 ^ 64) (shift + 7)

/-- The `bits_to_usize` from `src/r1cs/encoding.rs` (argument mirrors the
`(Vec<u8>, u8)` pair produced by `many_till!`). -/
def bits_to_usize (bits : List Nat × Nat) : Nat := accum bits.1 bits.2 0 0

/-- The `bits_to_i64` from `src/r1cs/encoding.rs`: accumulate the groups into a
`u64`, then undo the zigzag: even `res` gives `(res >> 1) as i64`, odd gives
`-1 * ((res >> 1) + 1) as i64` (the final multiplication wraps for
`res = u64::MAX`, correctly yielding `i64::MIN`). -/
def bits_to_i64 (bits : List Nat × Nat) : Int :=
  let res := accum bits.1 bits.2 0 0
  if res % 2 = 0 then i64ofU64 (res >>> 1)
  else wrapI64 (-1 * i64ofU64 ((res >>> 1) + 1))

/-- The `vlusize` nom parser: VarInt decode of an unsigned integer. -/
def vlusize : P Nat := fun input =>
  match takeGroups input with
  | .ok (bits, rem) => .ok (bits_to_usize bits, rem)
  | .error e => .error e

/-- The `vli64` nom parser: SignedVarInt (zigzag) decode of an `i64`. -/
def vli64 : P Int := fun input =>
  match takeGroups input with
  | .ok (bits, rem) => .ok (bits_to_i64 bits, rem)
  | .error e => .error e

/-- The `VariableIndex` from `src/r1cs/mod.rs`. -/
inductive VariableIndex where
  | Constant
  | Instance (i : Nat)
  | Witness (i : Nat)
deriving DecidableEq, Repr

/-- The `impl From<i64> for VariableIndex`: `0 => Constant`,
`i < 0 => Instance(-i as usize - 1)`, `i > 0 => Witness(i as usize - 1)`
(the negations / casts wrap through the `u64` bit pattern). -/
def VariableIndex.fromI64 (i : Int) : VariableIndex :=
  if i = 0 then .Constant
  else if i < 0 then .Instance (u64ofInt (-i) - 1)
  else .Witness (u64ofInt i - 1)

/-- The `impl From<&VariableIndex> for i64`: `Constant => 0`,
`Instance(i) => -(i as i64 + 1)`, `Witness(i) => i as i64 + 1`, with
wrapping `i64` arithmetic. -/
def VariableIndex.toI64 : VariableIndex → Int
  | .Constant => 0
  | .Instance i => wrapI64 (-(i64ofU64 i + 1))
  | .Witness i => wrapI64 (i64ofU64 i + 1)

/-- The `Coefficient(i64)` — the newtype adds nothing, so a coefficient is its
`i64` payload. -/
abbrev Coefficient := Int

/-- The `LinearCombination(Vec<(VariableIndex, Coefficient)>)`. -/
abbrev LinearCombination := List (VariableIndex × Coefficient)

/-- The `Constraint { a, b, c }` from `src/r1cs/mod.rs`. -/
structure Constraint where
  a : LinearCombination
  b : LinearCombination
  c : LinearCombination
deriving DecidableEq, Repr

/-- The `Assignment(VariableIndex, i64)` from `src/r1cs/mod.rs`. -/
structure Assignment where
  idx : VariableIndex
  val : Int
deriving DecidableEq, Repr

/-- The `Header` from `src/r1cs/mod.rs` (`ignored` models the `_ignored`
field). -/
structure Header where
  v : Nat
  p : Nat
  m : Nat
  nx : Nat
  nw : Nat
  ignored : List Int
deriving DecidableEq, Repr

/-- The `Header::from_file`: `parse_usize!(n[0]) … parse_usize!(n[3])` then
`n[4..].to_vec()`.  Indexing is checked in order: a missing index is a Rust
panic (`.crash`), a negative value returns `Err(())` (`.error .error`).
Note the source checks `n[0]` for negativity before touching `n[1]`, so a
short list whose early entries are negative errors rather than crashes. -/
def Header.from_file (v : Nat) (n : List Int) : Except DErr Header :=
  match n with
  | [] => .error .crash
  | [p] =>
      if p < 0 then .error .error else .error .crash
  | [p, m] =>
      if p < 0 then .error .error
      else if m < 0 then .error .error
      else .error .crash
  | [p, m, nx] =>
      if p < 0 then .error .error
      else if m < 0 then .error .error
      else if nx < 0 then .error .error
      else .error .crash
  | p :: m :: nx :: nw :: rest =>
      if p < 0 then .error .error
      else if m < 0 then .error .error
      else if nx < 0 then .error .error
      else if nw < 0 then .error .error
      else .ok ⟨v, p.toNat, m.toNat, nx.toNat, nw.toNat, rest⟩

/-- The `Header::to_file`: `(self.v, [p as i64, m as i64, nx as i64, nw as i64]
++ self._ignored)`. -/
def Header.to_file (h : Header) : Nat × List Int :=
  (h.v, i64ofU64 h.p :: i64ofU64 h.m :: i64ofU64 h.nx :: i64ofU64 h.nw ::
    h.ignored)

/-- The `R1CS(Header, Vec<Constraint>)`. -/
structure R1CS where
  hdr : Header
  constraints : List Constraint
deriving DecidableEq, Repr

/-- The `Assignments(Header, Vec<Assignment>)`. -/
structure Assignments where
  hdr : Header
  assigns : List Assignment
deriving DecidableEq, Repr

/-- The `variable_index` nom parser: `vli64` then `VariableIndex::from`. -/
def variable_index : P VariableIndex :=
  pbind vli64 fun i => ppure (VariableIndex.fromI64 i)

/-- The `coefficient` nom parser: `vli64` wrapped in `Coefficient`. -/
def coefficient : P Coefficient :=
  pbind vli64 fun c => ppure c

/-- nom `count!(p, n)`: parse exactly `n` elements with `p`. -/
def countP {α : Type} (p : P α) : Nat → P (List α)
  | 0 => ppure []
  | n + 1 =>
      pbind p fun a =>
      pbind (countP p n) fun as' =>
      ppure (a :: as')

/-- nom `length_count!(vlusize, p)`: a VarInt count then that many
elements. -/
def lengthCount {α : Type} (p : P α) : P (List α) :=
  pbind vlusize fun n => countP p n

/-- The `linear_combination` nom parser:
`length_count!(vlusize, variable_index >> coefficient)`. -/
def linear_combination : P LinearCombination :=
  pbind
    (lengthCount (pbind variable_index fun i =>
      pbind coefficient fun c => ppure (i, c)))
    fun pairs => ppure pairs

/-- The `constraint` nom parser: three `linear_combination`s, A then B then
C. -/
def constraint : P Constraint :=
  pbind linear_combination fun a =>
  pbind linear_combination fun b =>
  pbind linear_combination fun c =>
  ppure ⟨a, b, c⟩

/-- The `header` nom parser: `vlusize` version, `length_count!(vlusize,
vli64)`, then `expr_res!(Header::from_file(v, n))`. -/
def headerP : P Header := fun input =>
  match vlusize input with
  | .ok (v, r1) =>
    (match lengthCount vli64 r1 with
     | .ok (n, r2) =>
       (match Header.from_file v n with
        | .ok h => .ok (h, r2)
        | .error e => .error e)
     | .error e => .error e)
  | .error e => .error e

/-- nom `tag!`: the input must start with the given bytes; a too-short input
that matches so far is `Incomplete`, a mismatch is `Error`. -/
def tagP (t : List Nat) : P Unit := fun input =>
  if input.length < t.length then
    if input = t.take input.length then .error .incomplete else .error .error
  else if input.take t.length = t then .ok ((), input.drop t.length)
  else .error .error

/-- The 4-byte R1CS magic tag `"\x52\x31\x43\x53"` (`R1CS`). -/
def RMAGIC : List Nat := [0x52, 0x31, 0x43, 0x53]

/-- The 4-byte Assignments magic tag `"\x52\x31\x61\x73"` (`R1as`). -/
def AMAGIC : List Nat := [0x52, 0x31, 0x61, 0x73]

/-- The `r1cs` nom parser: magic, header, `length_count!(vlusize,
constraint)`. -/
def r1cs : P R1CS :=
  pbind (tagP RMAGIC) fun _ =>
  pbind headerP fun h =>
  pbind (lengthCount constraint) fun cs =>
  ppure ⟨h, cs⟩

/-- The `assignment_array` from `src/r1cs/encoding.rs`: `count!(vli64, 1)`,
`count!(vli64, nx)`, `count!(vli64, nw)`, then rebuild the tags from
position: constant, `Instance(0..nx)`, `Witness(0..nw)` (the
`iter().enumerate()` chain). -/
def assignment_array (nx nw : Nat) : P (List Assignment) :=
  pbind (countP vli64 1) fun c =>
  pbind (countP vli64 nx) fun x =>
  pbind (countP vli64 nw) fun w =>
  ppure
    (c.map (fun n => ⟨.Constant, n⟩) ++
      (x.enum.map fun jn => ⟨.Instance jn.1, jn.2⟩) ++
      (w.enum.map fun jn => ⟨.Witness jn.1, jn.2⟩))

/-- The `assignments` nom parser: magic, header, then
`assignment_array(h.nx, h.nw)`. -/
def assignmentsP : P Assignments :=
  pbind (tagP AMAGIC) fun _ =>
  pbind headerP fun h =>
  pbind (assignment_array h.nx h.nw) fun res =>
  ppure ⟨h, res⟩

/-- The `R1CS::decode`: run the `r1cs` parser and drop the remaining input
(`Ok((_, res)) => Ok(res)`). -/
def R1CS.decode (buf : List Nat) : Except DErr R1CS :=
  match r1cs buf with
  | .ok (res, _) => .ok res
  | .error e => .error e

/-- The `Assignments::decode`: run the `assignments` parser and drop the
remaining input. -/
def Assignments.decode (buf : List Nat) : Except DErr Assignments :=
  match assignmentsP buf with
  | .ok (res, _) => .ok res
  | .error e => .error e

/-- The `gen_vlusize`: emit `usize_to_bits n`. -/
def gen_vlusize (n : Nat) : List Nat := usize_to_bits n

/-- The `gen_vli64`: emit `i64_to_bits n`. -/
def gen_vli64 (n : Int) : List Nat := i64_to_bits n

/-- The `gen_variable_index`: `gen_vli64(i.into())`. -/
def gen_variable_index (i : VariableIndex) : List Nat := gen_vli64 i.toI64

/-- The `gen_coefficient`: `gen_vli64(c.0)`. -/
def gen_coefficient (c : Coefficient) : List Nat := gen_vli64 c

/-- The `gen_linear_combination_entry`: variable index then coefficient. -/
def gen_linear_combination_entry (e : VariableIndex × Coefficient) :
    List Nat :=
  gen_variable_index e.1 ++ gen_coefficient e.2

/-- The `gen_linear_combination`: the pair count as a VarInt, then every
entry. -/
def gen_linear_combination (lc : LinearCombination) : List Nat :=
  gen_vlusize lc.length ++ (lc.map gen_linear_combination_entry).flatten

/-- The `gen_constraint`: A, B and C back to back. -/
def gen_constraint (c : Constraint) : List Nat :=
  gen_linear_combination c.a ++ gen_linear_combination c.b ++
    gen_linear_combination c.c

/-- The `gen_header`: `to_file`, then version, entry count, entries. -/
def gen_header (h : Header) : List Nat :=
  gen_vlusize h.to_file.1 ++ gen_vlusize h.to_file.2.length ++
    (h.to_file.2.map gen_vli64).flatten

/-- The `gen_r1cs`: magic, header, constraint count, constraints. -/
def gen_r1cs (r : R1CS) : List Nat :=
  RMAGIC ++ gen_header r.hdr ++ gen_vlusize r.constraints.length ++
    (r.constraints.map gen_constraint).flatten

/-- The `gen_assignment`: only the value `r.1` is emitted — the
`VariableIndex` tag is never serialized. -/
def gen_assignment (a : Assignment) : List Nat := gen_vli64 a.val

/-- The `gen_assignments`: magic, header, then every assignment's value with no
count prefix. -/
def gen_assignments (r : Assignments) : List Nat :=
  AMAGIC ++ gen_header r.hdr ++ (r.assigns.map gen_assignment).flatten

/-- The `R1CS::encode`: the grow-retry loop around `gen_r1cs` terminates with
the buffer holding exactly the emitted bytes (every resize target is an
exact write offset, so the final buffer length equals the total emitted
length). -/
def R1CS.encode (r : R1CS) : List Nat := gen_r1cs r

/-- The `Assignments::encode`: same grow-retry protocol around
`gen_assignments`. -/
def Assignments.encode (r : Assignments) : List Nat := gen_assignments r


/-! ## Bit-level helper lemmas -/

/-- Masking with `127` is reduction modulo `128`. -/
theorem land127 (a : Nat) : a &&& 127 = a % 128 := by
  apply Nat.eq_of_testBit_eq
  intro i
  have h127 : (127 : Nat) = 2 ^ 7 - 1 := by norm_num
  have h128 : (128 : Nat) = 2 ^ 7 := by norm_num
  rw [Nat.testBit_and, h127, Nat.testBit_two_pow_sub_one, h128,
    Nat.testBit_mod_two_pow, Bool.and_comm]

/-- A continuation byte has its MSB set. -/
theorem testBit7_lor128 (x : Nat) : (128 ||| x).testBit 7 = true := by
  rw [Nat.testBit_lor]
  simp [show Nat.testBit 128 7 = true from by decide]

/-- Stripping the continuation bit recovers the 7-bit group. -/
theorem lor128_and127 (x : Nat) (h : x < 128) : (128 ||| x) &&& 127 = x := by
  apply Nat.eq_of_testBit_eq
  intro i
  have h127 : (127 : Nat) = 2 ^ 7 - 1 := by norm_num
  rw [Nat.testBit_and, Nat.testBit_lor, h127, Nat.testBit_two_pow_sub_one]
  rcases Nat.lt_or_ge i 7 with hi | hi
  · have h128 : Nat.testBit 128 i = false := by
      have : (128 : Nat) = 2 ^ 7 := by norm_num
      rw [this]
      exact Nat.testBit_two_pow_of_ne (by omega)
    simp [h128, hi]
  · have hx : Nat.testBit x i = false := by
      apply Nat.testBit_lt_two_pow
      calc x < 128 := h
        _ = 2 ^ 7 := by norm_num
        _ ≤ 2 ^ i := Nat.pow_le_pow_right (by norm_num) hi
    simp [hx, Nat.not_lt.mpr hi]

/-- Little-endian base-128 value of a group list and final group: the
mathematical reading of the `bits_to_usize` accumulation. -/
def groupsVal : List Nat → Nat → Nat
  | [], fin => fin
  | g :: gs, fin => g + 128 * groupsVal gs fin

/-- The `takeGroups` applied to an encoder output recovers the 7-bit groups of
the encoded number and leaves the rest of the input untouched. -/
theorem takeGroups_nat_to_bits (u : Nat) (rest : List Nat) :
    ∃ gs fin, takeGroups (nat_to_bits u ++ rest) = .ok ((gs, fin), rest) ∧
      groupsVal gs fin = u ∧
      ∀ k, u < 2 ^ (7 * k + 7) → gs.length ≤ k := by
  induction u using Nat.strong_induction_on with
  | _ u ih =>
    rw [nat_to_bits]
    by_cases h : 127 < u
    · simp only [if_pos h, List.cons_append]
      obtain ⟨gs, fin, hrun, hval, hlen⟩ := ih (u / 128) (by omega)
      refine ⟨((128 ||| (u % 128)) &&& 127) :: gs, fin, ?_, ?_, ?_⟩
      · unfold takeGroups
        simp only [testBit7_lor128, if_pos, hrun]
      · rw [lor128_and127 _ (Nat.mod_lt _ (by omega))]
        simp only [groupsVal, hval]
        omega
      · intro k hk
        match k with
        | 0 =>
          exfalso
          have : (2 : Nat) ^ (7 * 0 + 7) = 128 := by norm_num
          omega
        | k + 1 =>
          have : u / 128 < 2 ^ (7 * k + 7) := by
            have h2 : (2 : Nat) ^ (7 * (k + 1) + 7) = 2 ^ (7 * k + 7) * 128 := by
              rw [show 7 * (k + 1) + 7 = (7 * k + 7) + 7 from by ring, pow_add]
              norm_num
            rw [h2] at hk
            omega
          simpa using Nat.succ_le_succ (hlen k this)
    · simp only [if_neg h, List.cons_append, List.nil_append]
      have hu' : u &&& 127 = u := by
        rw [land127]
        omega
      refine ⟨[], u, ?_, by simp [groupsVal], by intro k _; simp⟩
      unfold takeGroups
      rw [hu', show u.testBit 7 = false from Nat.testBit_lt_two_pow (by omega)]
      simp [hu']

/-- When every shift stays below 64 and the running total stays below
`2^64`, the wrapping accumulator computes the exact base-128 value. -/
theorem accum_exact (gs : List Nat) (fin res shift : Nat)
    (hshift : shift + 7 * gs.length < 64)
    (hval : res + groupsVal gs fin * 2 ^ shift < 2 ^ 64) :
    accum gs fin res shift = res + groupsVal gs fin * 2 ^ shift := by
  induction gs generalizing res shift with
  | nil =>
    simp only [accum, groupsVal] at *
    rw [Nat.mod_eq_of_lt (show shift < 64 by omega), Nat.shiftLeft_eq]
    omega
  | cons g gs ih =>
    simp only [accum, groupsVal, List.length_cons] at *
    rw [Nat.mod_eq_of_lt (show shift < 64 by omega), Nat.shiftLeft_eq]
    have expand : (g + 128 * groupsVal gs fin) * 2 ^ shift =
        g * 2 ^ shift + groupsVal gs fin * 2 ^ (shift + 7) := by
      rw [pow_add]
      ring
    rw [expand] at hval ⊢
    have hmods : (res + g * 2 ^ shift % 2 ^ 64) % 2 ^ 64 = res + g * 2 ^ shift := by
      omega
    rw [hmods, ih (res + g * 2 ^ shift) (shift + 7) (by omega) (by omega)]
    ring

/-- VarInt round-trip at the parser level: `vlusize` run on
`usize_to_bits u` followed by anything returns exactly `u` and the rest. -/
theorem vlusize_rt (u : Nat) (hu : u < 2 ^ 64) (rest : List Nat) :
    vlusize (usize_to_bits u ++ rest) = .ok (u, rest) := by
  obtain ⟨gs, fin, hrun, hval, hlen⟩ := takeGroups_nat_to_bits u rest
  have hl : gs.length ≤ 9 := by
    apply hlen
    calc u < 2 ^ 64 := hu
      _ ≤ 2 ^ (7 * 9 + 7) := Nat.pow_le_pow_right (by norm_num) (by norm_num)
  unfold vlusize usize_to_bits
  simp only [hrun]
  unfold bits_to_usize
  rw [accum_exact gs fin 0 0 (by omega) (by simpa [hval] using hu)]
  simp [hval]

/-! ## SignedVarInt (zigzag) round-trip -/

/-- XOR with the all-ones 64-bit pattern is complement within 64 bits. -/
theorem xor_allones (a : Nat) (h : a < 2 ^ 64) :
    a ^^^ (2 ^ 64 - 1) = 2 ^ 64 - 1 - a := by
  apply Nat.eq_of_testBit_eq
  intro i
  have hsub : (2 : Nat) ^ 64 - 1 - a = 2 ^ 64 - (a + 1) := by omega
  rw [Nat.testBit_xor, Nat.testBit_two_pow_sub_one, hsub,
    Nat.testBit_two_pow_sub_succ h]
  rcases Nat.lt_or_ge i 64 with hi | hi
  · simp [hi]
  · have ha : a.testBit i = false := by
      apply Nat.testBit_lt_two_pow
      calc a < 2 ^ 64 := h
        _ ≤ 2 ^ i := Nat.pow_le_pow_right (by norm_num) hi
    simp [ha, Nat.not_lt.mpr hi]

/-- The zigzag transform of an in-range `i64` computed arithmetically:
non-negative `n` maps to `2n`, negative `n` to `2(-n) - 1`. -/
theorem zigzag_eq (n : Int) (h1 : -2 ^ 63 ≤ n) (h2 : n < 2 ^ 63) :
    u64ofInt (n * 2) ^^^ u64ofInt (Int.fdiv n (2 ^ 63)) =
      (if 0 ≤ n then 2 * n else 2 * (-n) - 1).toNat := by
  rw [Int.fdiv_eq_ediv _ (by positivity)]
  rcases le_or_lt 0 n with hn | hn
  · have hd : n / 2 ^ 63 = 0 := by omega
    rw [hd, if_pos hn]
    unfold u64ofInt
    have : ((0 : Int) % 2 ^ 64).toNat = 0 := by omega
    rw [this, Nat.xor_zero]
    omega
  · have hd : n / 2 ^ 63 = -1 := by omega
    rw [hd, if_neg (by omega)]
    unfold u64ofInt
    have hm1 : ((-1 : Int) % 2 ^ 64).toNat = 2 ^ 64 - 1 := by omega
    rw [hm1, xor_allones _ (by omega)]
    omega

/-- Undoing the zigzag in `bits_to_i64` recovers the original `i64`,
including `i64::MIN` (where the final `-1 *` multiplication wraps). -/
theorem unzigzag_eq (n : Int) (h1 : -2 ^ 63 ≤ n) (h2 : n < 2 ^ 63) :
    (if (if 0 ≤ n then 2 * n else 2 * (-n) - 1).toNat % 2 = 0 then
        i64ofU64 ((if 0 ≤ n then 2 * n else 2 * (-n) - 1).toNat >>> 1)
      else
        wrapI64 (-1 *
          i64ofU64 ((if 0 ≤ n then 2 * n else 2 * (-n) - 1).toNat >>> 1 + 1)))
      = n := by
  have hsr : ∀ m : Nat, m >>> 1 = m / 2 := fun m => by
    rw [Nat.shiftRight_eq_div_pow]
  rcases le_or_lt 0 n with hn | hn
  · rw [if_pos hn, if_pos (by omega), hsr]
    unfold i64ofU64
    split_ifs <;> omega
  · rw [if_neg (by omega), if_neg (by omega), hsr]
    have harg : (2 * (-n) - 1).toNat / 2 + 1 = (-n).toNat := by omega
    rw [harg]
    unfold wrapI64 i64ofU64 u64ofInt
    split_ifs <;> omega

/-- SignedVarInt round-trip at the parser level: `vli64` run on
`i64_to_bits n` followed by anything returns exactly `n` and the rest, for
every `i64` value of `n` including `i64::MIN`. -/
theorem vli64_rt (n : Int) (h1 : -2 ^ 63 ≤ n) (h2 : n < 2 ^ 63)
    (rest : List Nat) : vli64 (i64_to_bits n ++ rest) = .ok (n, rest) := by
  unfold vli64 i64_to_bits
  rw [zigzag_eq n h1 h2]
  set u : Nat := (if 0 ≤ n then 2 * n else 2 * (-n) - 1).toNat with hu
  have hu64 : u < 2 ^ 64 := by
    rw [hu]
    split <;> omega
  obtain ⟨gs, fin, hrun, hval, hlen⟩ := takeGroups_nat_to_bits u rest
  have hl : gs.length ≤ 9 := by
    apply hlen
    calc u < 2 ^ 64 := hu64
      _ ≤ 2 ^ (7 * 9 + 7) := Nat.pow_le_pow_right (by norm_num) (by norm_num)
  simp only [hrun]
  unfold bits_to_i64
  rw [accum_exact gs fin 0 0 (by omega) (by simpa [hval] using hu64)]
  have hval' : 0 + groupsVal gs fin * 2 ^ 0 = u := by simp [hval]
  rw [hval', hu, unzigzag_eq n h1 h2]

/-! ## Well-formedness: the value actually is a Rust value of the source's
types (usize lengths, i64 payloads, usize indices whose `i64` image is
representable). -/

/-- Range predicate: `n` is representable as a Rust `i64`. -/
def i64Range (n : Int) : Prop := -2 ^ 63 ≤ n ∧ n < 2 ^ 63

/-- The index stored in a `VariableIndex` keeps its `i64` image
representable (`Instance(i) ↦ -(i+1)`, `Witness(i) ↦ i+1`). -/
def VariableIndex.wf : VariableIndex → Prop
  | .Constant => True
  | .Instance i => i < 2 ^ 63
  | .Witness i => i < 2 ^ 63 - 1

/-- A linear combination with a `usize` length and representable entries. -/
def lcwf (lc : LinearCombination) : Prop :=
  lc.length < 2 ^ 64 ∧ ∀ e ∈ lc, e.1.wf ∧ i64Range e.2

/-- All three linear combinations of a constraint are well-formed. -/
def Constraint.wf (c : Constraint) : Prop := lcwf c.a ∧ lcwf c.b ∧ lcwf c.c

/-- Header fields within the ranges `Header::from_file` can produce:
`p,m,nx,nw` come from non-negative `i64`s, `_ignored` holds `i64`s, and the
version/entry counts are `usize`s. -/
def Header.wf (h : Header) : Prop :=
  h.v < 2 ^ 64 ∧ h.p < 2 ^ 63 ∧ h.m < 2 ^ 63 ∧ h.nx < 2 ^ 63 ∧
    h.nw < 2 ^ 63 ∧ 4 + h.ignored.length < 2 ^ 64 ∧
    ∀ k ∈ h.ignored, i64Range k

/-- A well-formed `R1CS` value. -/
def R1CS.wf (r : R1CS) : Prop :=
  r.hdr.wf ∧ r.constraints.length < 2 ^ 64 ∧ ∀ c ∈ r.constraints, c.wf

/-- The assignment list shape `decode` always produces (and the only shape
`encode` can reproduce, since tags are never serialized): one constant
entry, then instance entries indexed from 0, then witness entries indexed
from 0. -/
def canonicalAssigns (c : Int) (xs ws : List Int) : List Assignment :=
  ⟨.Constant, c⟩ :: ((xs.enum.map fun jn => ⟨.Instance jn.1, jn.2⟩) ++
    (ws.enum.map fun jn => ⟨.Witness jn.1, jn.2⟩))

/-- A well-formed `Assignments` value: well-formed header and a canonical
assignment list agreeing with the header's `nx`/`nw` (the invariant stated
in the source's format comments and established by `decode`). -/
def Assignments.wf (r : Assignments) : Prop :=
  r.hdr.wf ∧ ∃ c xs ws, xs.length = r.hdr.nx ∧ ws.length = r.hdr.nw ∧
    i64Range c ∧ (∀ k ∈ xs, i64Range k) ∧ (∀ k ∈ ws, i64Range k) ∧
    r.assigns = canonicalAssigns c xs ws

/-! ## Generator/parser agreement -/

/-- Agreement: `p` parses back exactly what `g` emitted for `a`, from any
continuation. -/
def Emits {α : Type} (p : P α) (g : α → List Nat) (a : α) : Prop :=
  ∀ rest, p (g a ++ rest) = .ok (a, rest)

/-- Reduce a `pbind` whose first parser is known to succeed. -/
theorem pbind_ok {α β : Type} (p : P α) (f : α → P β) (input : List Nat)
    (a : α) (rest : List Nat) (h : p input = .ok (a, rest)) :
    pbind p f input = f a rest := by
  unfold pbind
  rw [h]

/-- Reduce a `pbind` whose first parser is known to fail. -/
theorem pbind_err {α β : Type} (p : P α) (f : α → P β) (input : List Nat)
    (e : DErr) (h : p input = .error e) : pbind p f input = .error e := by
  unfold pbind
  rw [h]

theorem emits_vlusize (n : Nat) (h : n < 2 ^ 64) :
    Emits vlusize gen_vlusize n := fun rest => vlusize_rt n h rest

theorem emits_vli64 (n : Int) (h : i64Range n) :
    Emits vli64 gen_vli64 n := fun rest => vli64_rt n h.1 h.2 rest

/-- In-range wrapping is the identity. -/
theorem wrapI64_eq (n : Int) (h1 : -2 ^ 63 ≤ n) (h2 : n < 2 ^ 63) :
    wrapI64 n = n := by
  unfold wrapI64 i64ofU64 u64ofInt
  split_ifs <;> omega

/-- The `i64ofU64` on a small pattern is the plain cast. -/
theorem i64ofU64_small (u : Nat) (h : u < 2 ^ 63) : i64ofU64 u = (u : Int) := by
  unfold i64ofU64
  rw [if_pos h]

/-- The `VariableIndex ↔ i64` maps are mutually inverse on well-formed
indices, and the image is representable. -/
theorem fromI64_toI64 (vi : VariableIndex) (h : vi.wf) :
    VariableIndex.fromI64 vi.toI64 = vi ∧ i64Range vi.toI64 := by
  cases vi with
  | Constant =>
    refine ⟨rfl, ?_, ?_⟩ <;> decide
  | Instance i =>
    unfold VariableIndex.wf at h
    have hi : i64ofU64 i = (i : Int) := i64ofU64_small i h
    have hr : VariableIndex.toI64 (.Instance i) = -((i : Int) + 1) := by
      show wrapI64 (-(i64ofU64 i + 1)) = _
      rw [hi, wrapI64_eq _ (by omega) (by omega)]
    rw [hr]
    refine ⟨?_, by omega, by omega⟩
    unfold VariableIndex.fromI64 u64ofInt
    rw [if_neg (by omega), if_pos (by omega)]
    have he : ((-(-((i : Int) + 1))) % 2 ^ 64).toNat = i + 1 := by omega
    rw [he]
    norm_num
  | Witness i =>
    unfold VariableIndex.wf at h
    have hi : i64ofU64 i = (i : Int) := i64ofU64_small i (by omega)
    have hr : VariableIndex.toI64 (.Witness i) = (i : Int) + 1 := by
      show wrapI64 (i64ofU64 i + 1) = _
      rw [hi, wrapI64_eq _ (by omega) (by omega)]
    rw [hr]
    refine ⟨?_, by omega, by omega⟩
    unfold VariableIndex.fromI64 u64ofInt
    rw [if_neg (by omega), if_neg (by omega)]
    have he : (((i : Int) + 1) % 2 ^ 64).toNat = i + 1 := by omega
    rw [he]
    norm_num

theorem emits_variable_index (vi : VariableIndex) (h : vi.wf) :
    Emits variable_index gen_variable_index vi := by
  intro rest
  obtain ⟨hinv, hr⟩ := fromI64_toI64 vi h
  unfold variable_index pbind gen_variable_index
  rw [emits_vli64 _ hr rest]
  simp [ppure, hinv]

theorem emits_coefficient (c : Coefficient) (h : i64Range c) :
    Emits coefficient gen_coefficient c := by
  intro rest
  unfold coefficient pbind gen_coefficient
  rw [emits_vli64 _ h rest]
  simp [ppure]

/-- The `count!` round-trips a list element by element. -/
theorem emits_countP {α : Type} (p : P α) (g : α → List Nat) (l : List α)
    (h : ∀ a ∈ l, Emits p g a) (rest : List Nat) :
    countP p l.length ((l.map g).flatten ++ rest) = .ok (l, rest) := by
  induction l with
  | nil => simp [countP, ppure]
  | cons a l ih =>
    have ha := h a (by simp)
    simp only [List.map_cons, List.flatten_cons, List.length_cons,
      List.append_assoc]
    unfold countP
    rw [pbind_ok _ _ _ a ((l.map g).flatten ++ rest)
      (ha ((l.map g).flatten ++ rest))]
    rw [pbind_ok _ _ _ l rest (ih (fun x hx => h x (by simp [hx])))]
    simp [ppure]

/-- The `length_count!` round-trips: VarInt length then the elements. -/
theorem emits_lengthCount {α : Type} (p : P α) (g : α → List Nat)
    (l : List α) (hlen : l.length < 2 ^ 64) (h : ∀ a ∈ l, Emits p g a)
    (rest : List Nat) :
    lengthCount p
      (gen_vlusize l.length ++ ((l.map g).flatten ++ rest)) = .ok (l, rest) := by
  unfold lengthCount gen_vlusize
  rw [pbind_ok _ _ _ l.length ((l.map g).flatten ++ rest)
    (vlusize_rt l.length hlen ((l.map g).flatten ++ rest))]
  exact emits_countP p g l h rest

/-- The pair parser inside `linear_combination`. -/
theorem emits_lc_entry (e : VariableIndex × Coefficient) (h1 : e.1.wf)
    (h2 : i64Range e.2) :
    Emits (pbind variable_index fun i => pbind coefficient fun c =>
      ppure (i, c)) gen_linear_combination_entry e := by
  intro rest
  obtain ⟨i, c⟩ := e
  unfold gen_linear_combination_entry
  dsimp only at h1 h2 ⊢
  rw [List.append_assoc]
  rw [pbind_ok _ _ _ i (gen_coefficient c ++ rest)
    (emits_variable_index i h1 (gen_coefficient c ++ rest))]
  rw [pbind_ok _ _ _ c rest (emits_coefficient c h2 rest)]
  rfl

theorem emits_linear_combination (lc : LinearCombination) (h : lcwf lc) :
    Emits linear_combination gen_linear_combination lc := by
  intro rest
  unfold linear_combination gen_linear_combination
  rw [List.append_assoc]
  rw [pbind_ok _ _ _ lc rest
    (emits_lengthCount _ gen_linear_combination_entry lc h.1
      (fun e he => emits_lc_entry e (h.2 e he).1 (h.2 e he).2) rest)]
  rfl

theorem emits_constraint (c : Constraint) (h : c.wf) :
    Emits constraint gen_constraint c := by
  intro rest
  obtain ⟨a, b, cc⟩ := c
  obtain ⟨ha, hb, hc⟩ := h
  unfold constraint gen_constraint
  dsimp only
  simp only [List.append_assoc]
  rw [pbind_ok _ _ _ a _ (emits_linear_combination a ha _)]
  rw [pbind_ok _ _ _ b _ (emits_linear_combination b hb _)]
  rw [pbind_ok _ _ _ cc _ (emits_linear_combination cc hc _)]
  rfl

/-- The `from_file` undoes `to_file` on a well-formed header. -/
theorem from_file_to_file (h : Header) (hw : h.wf) :
    Header.from_file h.to_file.1 h.to_file.2 = .ok h := by
  obtain ⟨v, p, m, nx, nw, ig⟩ := h
  unfold Header.wf at hw
  dsimp only at hw
  obtain ⟨hv, hp, hm, hnx, hnw, hlen, hig⟩ := hw
  unfold Header.to_file Header.from_file
  dsimp only
  rw [i64ofU64_small p hp, i64ofU64_small m hm, i64ofU64_small nx hnx,
    i64ofU64_small nw hnw]
  rw [if_neg (by omega), if_neg (by omega), if_neg (by omega),
    if_neg (by omega)]
  simp

/-- Every `to_file` entry of a well-formed header is a representable
`i64`. -/
theorem to_file_entries_range (h : Header) (hw : h.wf) :
    ∀ k ∈ h.to_file.2, i64Range k := by
  obtain ⟨v, p, m, nx, nw, ig⟩ := h
  unfold Header.wf at hw
  dsimp only at hw
  obtain ⟨hv, hp, hm, hnx, hnw, hlen, hig⟩ := hw
  intro k hk
  unfold Header.to_file at hk
  dsimp only at hk
  rw [i64ofU64_small p hp, i64ofU64_small m hm, i64ofU64_small nx hnx,
    i64ofU64_small nw hnw] at hk
  simp only [List.mem_cons] at hk
  rcases hk with rfl | rfl | rfl | rfl | hk
  · exact ⟨by omega, by omega⟩
  · exact ⟨by omega, by omega⟩
  · exact ⟨by omega, by omega⟩
  · exact ⟨by omega, by omega⟩
  · exact hig k hk

theorem emits_headerP (h : Header) (hw : h.wf) :
    ∀ rest, headerP (gen_header h ++ rest) = .ok (h, rest) := by
  intro rest
  have hlen2 : h.to_file.2.length < 2 ^ 64 := by
    have := hw.2.2.2.2.2.1
    unfold Header.to_file
    dsimp only
    simp only [List.length_cons]
    omega
  have hv : h.to_file.1 < 2 ^ 64 := hw.1
  unfold headerP gen_header
  simp only [List.append_assoc]
  rw [show gen_vlusize h.to_file.1 = usize_to_bits h.to_file.1 from rfl]
  simp only [vlusize_rt h.to_file.1 hv,
    emits_lengthCount vli64 gen_vli64 h.to_file.2 hlen2
      (fun k hk => emits_vli64 k (to_file_entries_range h hw k hk)) rest,
    from_file_to_file h hw]

/-- The `tag!` consumes exactly its own bytes. -/
theorem tagP_rt (t rest : List Nat) : tagP t (t ++ rest) = .ok ((), rest) := by
  unfold tagP
  rw [if_neg (by simp), if_pos (by simp)]
  simp

theorem emits_r1cs (r : R1CS) (hw : R1CS.wf r) :
    ∀ rest, r1cs (gen_r1cs r ++ rest) = .ok (r, rest) := by
  intro rest
  obtain ⟨h, cs⟩ := r
  obtain ⟨hh, hlen, hcs⟩ := hw
  unfold r1cs gen_r1cs
  dsimp only
  simp only [List.append_assoc]
  rw [pbind_ok _ _ _ () _ (tagP_rt RMAGIC _)]
  rw [pbind_ok _ _ _ h _ (emits_headerP h hh _)]
  rw [pbind_ok _ _ _ cs rest
    (emits_lengthCount constraint gen_constraint cs hlen
      (fun c hc => emits_constraint c (hcs c hc)) rest)]
  rfl

/-- The `R1CS::decode ∘ R1CS::encode` is the identity on well-formed values. -/
theorem r1cs_decode_encode (r : R1CS) (hw : R1CS.wf r) :
    R1CS.decode (R1CS.encode r) = .ok r := by
  unfold R1CS.decode R1CS.encode
  rw [show gen_r1cs r = gen_r1cs r ++ [] from (List.append_nil _).symm]
  rw [emits_r1cs r hw []]

/-- Emitting tagged assignments only serializes the values: mapping
`gen_assignment` over an enumerated, tagged list forgets the tags. -/
theorem map_gen_assignment_enum (f : Nat → VariableIndex) (xs : List Int) :
    ((xs.enum.map fun jn => (⟨f jn.1, jn.2⟩ : Assignment)).map
      gen_assignment) = xs.map gen_vli64 := by
  rw [List.map_map]
  have h1 : (gen_assignment ∘ fun jn : Nat × Int =>
      (⟨f jn.1, jn.2⟩ : Assignment)) = fun jn : Nat × Int =>
        gen_vli64 jn.2 := rfl
  rw [h1]
  have h2 : (fun jn : Nat × Int => gen_vli64 jn.2) =
      gen_vli64 ∘ Prod.snd := rfl
  rw [h2, ← List.map_map, List.enum_map_snd]

/-- Byte layout of an encoded canonical assignment list: the constant's
value, the instance values, the witness values — nothing else. -/
theorem map_gen_canonical (cv : Int) (xs ws : List Int) :
    ((canonicalAssigns cv xs ws).map gen_assignment).flatten =
      gen_vli64 cv ++ ((xs.map gen_vli64).flatten ++
        (ws.map gen_vli64).flatten) := by
  unfold canonicalAssigns
  simp only [List.map_cons, List.map_append, List.flatten_cons,
    List.flatten_append, map_gen_assignment_enum]
  rfl

theorem emits_assignment_array (cv : Int) (xs ws : List Int)
    (hc : i64Range cv) (hxs : ∀ k ∈ xs, i64Range k)
    (hws : ∀ k ∈ ws, i64Range k) (rest : List Nat) :
    assignment_array xs.length ws.length
      (((canonicalAssigns cv xs ws).map gen_assignment).flatten ++ rest) =
      .ok (canonicalAssigns cv xs ws, rest) := by
  have h1 : ∀ Z, countP vli64 1 (gen_vli64 cv ++ Z) = .ok ([cv], Z) := by
    intro Z
    have h2 := emits_countP vli64 gen_vli64 [cv]
      (by
        intro a ha
        rw [List.mem_singleton] at ha
        rw [ha]
        exact emits_vli64 cv hc) Z
    simpa using h2
  unfold assignment_array
  rw [map_gen_canonical]
  simp only [List.append_assoc]
  rw [pbind_ok _ _ _ [cv] _ (h1 _)]
  rw [pbind_ok _ _ _ xs _
    (emits_countP vli64 gen_vli64 xs (fun k hk => emits_vli64 k (hxs k hk)) _)]
  rw [pbind_ok _ _ _ ws rest
    (emits_countP vli64 gen_vli64 ws
      (fun k hk => emits_vli64 k (hws k hk)) rest)]
  unfold ppure canonicalAssigns
  simp

theorem emits_assignmentsP (a : Assignments) (hw : Assignments.wf a) :
    ∀ rest, assignmentsP (gen_assignments a ++ rest) = .ok (a, rest) := by
  intro rest
  obtain ⟨h, asg⟩ := a
  obtain ⟨hh, cv, xs, ws, hxlen, hwlen, hc, hxs, hws, heq⟩ := hw
  dsimp only at hh hxlen hwlen heq ⊢
  subst heq
  unfold assignmentsP gen_assignments
  dsimp only
  simp only [List.append_assoc]
  rw [pbind_ok _ _ _ () _ (tagP_rt AMAGIC _)]
  rw [pbind_ok _ _ _ h _ (emits_headerP h hh _)]
  rw [← hxlen, ← hwlen]
  rw [pbind_ok _ _ _ (canonicalAssigns cv xs ws) rest
    (emits_assignment_array cv xs ws hc hxs hws rest)]
  rfl

/-- The `Assignments::decode ∘ Assignments::encode` is the identity on
well-formed (canonical) values. -/
theorem assignments_decode_encode (a : Assignments) (hw : Assignments.wf a) :
    Assignments.decode (Assignments.encode a) = .ok a := by
  unfold Assignments.decode Assignments.encode
  rw [show gen_assignments a = gen_assignments a ++ [] from
    (List.append_nil _).symm]
  rw [emits_assignmentsP a hw []]

/-! ## Parser algebra and error characterization -/

theorem pbind_assoc {α β γ : Type} (p : P α) (f : α → P β) (g : β → P γ)
    (input : List Nat) :
    pbind (pbind p f) g input = pbind p (fun a => pbind (f a) g) input := by
  unfold pbind
  cases p input with
  | ok ar => rfl
  | error e => rfl

theorem pbind_ppure_left {α β : Type} (a : α) (f : α → P β)
    (input : List Nat) : pbind (ppure a) f input = f a input := rfl

theorem pbind_ppure_right {α : Type} (p : P α) (input : List Nat) :
    pbind p ppure input = p input := by
  unfold pbind ppure
  cases p input with
  | ok ar => rfl
  | error e => rfl

theorem pbind_congr {α β : Type} (p : P α) (f g : α → P β)
    (h : ∀ a r, f a r = g a r) (input : List Nat) :
    pbind p f input = pbind p g input := by
  unfold pbind
  cases p input with
  | ok ar => exact h ar.1 ar.2
  | error e => rfl

theorem pbind_eq_of_eq {α β : Type} (p q : P α) (f : α → P β)
    (input : List Nat) (h : p input = q input) :
    pbind p f input = pbind q f input := by
  unfold pbind
  rw [h]

/-- The `count!(p, n + m)` is `count!(p, n)` then `count!(p, m)`, appended. -/
theorem countP_add {α : Type} (p : P α) (n m : Nat) (input : List Nat) :
    countP p (n + m) input =
      pbind (countP p n) (fun l1 =>
        pbind (countP p m) (fun l2 => ppure (l1 ++ l2))) input := by
  induction n generalizing input with
  | zero =>
    rw [Nat.zero_add]
    rw [show countP p 0 = ppure ([] : List α) from rfl, pbind_ppure_left]
    rw [show (fun l2 : List α => ppure (([] : List α) ++ l2)) = ppure from
      rfl]
    rw [pbind_ppure_right]
  | succ n ih =>
    rw [show n + 1 + m = (n + m) + 1 from by omega]
    rw [show countP p ((n + m) + 1) =
      pbind p (fun a => pbind (countP p (n + m)) fun as' =>
        ppure (a :: as')) from rfl]
    rw [show countP p (n + 1) =
      pbind p (fun a => pbind (countP p n) fun as' =>
        ppure (a :: as')) from rfl]
    rw [pbind_assoc]
    apply pbind_congr
    intro a r
    rw [pbind_eq_of_eq (countP p (n + m)) _ _ r (ih r)]
    rw [pbind_assoc, pbind_assoc]
    apply pbind_congr
    intro l1 r1
    rw [pbind_assoc, pbind_ppure_left]
    apply pbind_congr
    intro l2 r2
    rfl

/-- A successful `count!(p, n + 1)` splits into head element and tail. -/
theorem countP_succ_ok {α : Type} (p : P α) (n : Nat) (input : List Nat)
    (l : List α) (rem : List Nat) (h : countP p (n + 1) input = .ok (l, rem)) :
    ∃ a r l', p input = .ok (a, r) ∧ countP p n r = .ok (l', rem) ∧
      l = a :: l' := by
  rw [show countP p (n + 1) =
    pbind p (fun a => pbind (countP p n) fun as' =>
      ppure (a :: as')) from rfl] at h
  cases hp : p input with
  | error e =>
    rw [pbind_err _ _ _ _ hp] at h
    cases h
  | ok ar =>
    obtain ⟨a, r⟩ := ar
    rw [pbind_ok _ _ _ a r hp] at h
    cases hc : countP p n r with
    | error e =>
      rw [pbind_err _ _ _ _ hc] at h
      cases h
    | ok lr =>
      obtain ⟨l', rem'⟩ := lr
      rw [pbind_ok _ _ _ l' rem' hc] at h
      simp only [ppure, Except.ok.injEq, Prod.mk.injEq] at h
      exact ⟨a, r, l', rfl, h.2 ▸ hc, h.1.symm⟩

theorem countP_zero_ok {α : Type} (p : P α) (input : List Nat) (l : List α)
    (rem : List Nat) (h : countP p 0 input = .ok (l, rem)) :
    l = [] ∧ rem = input := by
  rw [show countP p 0 = ppure ([] : List α) from rfl] at h
  simp only [ppure, Except.ok.injEq, Prod.mk.injEq] at h
  exact ⟨h.1.symm, h.2.symm⟩

/-- A successful `count!(p, n)` yields exactly `n` elements. -/
theorem countP_ok_length {α : Type} (p : P α) (n : Nat) :
    ∀ (input : List Nat) (l : List α) (rem : List Nat),
      countP p n input = .ok (l, rem) → l.length = n := by
  induction n with
  | zero =>
    intro input l rem h
    rw [(countP_zero_ok p input l rem h).1]
    rfl
  | succ n ih =>
    intro input l rem h
    obtain ⟨a, r, l', hp, hc, rfl⟩ := countP_succ_ok p n input l rem h
    simp [ih r l' rem hc]

/-- The `takeGroups` can only fail by running out of input. -/
theorem takeGroups_err (input : List Nat) (e : DErr)
    (h : takeGroups input = .error e) : e = .incomplete := by
  induction input with
  | nil =>
    unfold takeGroups at h
    cases h
    rfl
  | cons b rest ih =>
    unfold takeGroups at h
    by_cases hb : b.testBit 7
    · rw [if_pos hb] at h
      cases hr : takeGroups rest with
      | ok v =>
        rw [hr] at h
        obtain ⟨⟨gs, fin⟩, rem⟩ := v
        cases h
      | error e' =>
        rw [hr] at h
        cases h
        exact ih hr
    · rw [if_neg hb] at h
      cases h

/-- SignedVarInt decoding can only fail by running out of input — there is
no overflow failure and no continuation-count limit. -/
theorem vli64_err (input : List Nat) (e : DErr)
    (h : vli64 input = .error e) : e = .incomplete := by
  unfold vli64 at h
  cases hr : takeGroups input with
  | ok v =>
    rw [hr] at h
    cases h
  | error e' =>
    rw [hr] at h
    cases h
    exact takeGroups_err input e hr

/-- Counting SignedVarInts can only fail by running out of input. -/
theorem countP_vli64_err (n : Nat) :
    ∀ (input : List Nat) (e : DErr),
      countP vli64 n input = .error e → e = .incomplete := by
  induction n with
  | zero =>
    intro input e h
    rw [show countP vli64 0 = ppure ([] : List Int) from rfl] at h
    cases h
  | succ n ih =>
    intro input e h
    rw [show countP vli64 (n + 1) =
      pbind vli64 (fun a => pbind (countP vli64 n) fun as' =>
        ppure (a :: as')) from rfl] at h
    cases hp : vli64 input with
    | error e' =>
      rw [pbind_err _ _ _ _ hp] at h
      cases h
      exact vli64_err input e hp
    | ok ar =>
      obtain ⟨a, r⟩ := ar
      rw [pbind_ok _ _ _ a r hp] at h
      cases hc : countP vli64 n r with
      | error e' =>
        rw [pbind_err _ _ _ _ hc] at h
        cases h
        exact ih r e hc
      | ok lr =>
        obtain ⟨l', rem'⟩ := lr
        rw [pbind_ok _ _ _ l' rem' hc] at h
        cases h

/-! ## Composition facts for the file-level decoders -/

theorem countP_add_ok {α : Type} (p : P α) (n m : Nat) (input : List Nat)
    (l1 : List α) (r1 : List Nat) (l2 : List α) (r2 : List Nat)
    (h1 : countP p n input = .ok (l1, r1)) (h2 : countP p m r1 = .ok (l2, r2)) :
    countP p (n + m) input = .ok (l1 ++ l2, r2) := by
  rw [countP_add, pbind_ok _ _ _ l1 r1 h1, pbind_ok _ _ _ l2 r2 h2]
  rfl

theorem countP_add_err1 {α : Type} (p : P α) (n m : Nat) (input : List Nat)
    (e : DErr) (h1 : countP p n input = .error e) :
    countP p (n + m) input = .error e := by
  rw [countP_add]
  exact pbind_err _ _ _ _ h1

theorem countP_add_err2 {α : Type} (p : P α) (n m : Nat) (input : List Nat)
    (l1 : List α) (r1 : List Nat) (e : DErr)
    (h1 : countP p n input = .ok (l1, r1)) (h2 : countP p m r1 = .error e) :
    countP p (n + m) input = .error e := by
  rw [countP_add, pbind_ok _ _ _ l1 r1 h1]
  exact pbind_err _ _ _ _ h2

/-- The tag sequence `decode` reconstructs positionally: one constant, then
`Instance(0..nx)`, then `Witness(0..nw)`. -/
def canonicalTags (nx nw : Nat) : List VariableIndex :=
  .Constant :: ((List.range nx).map .Instance ++ (List.range nw).map .Witness)

/-- A successful `assignment_array` yields `1 + nx + nw` entries whose tags
are purely positional, and consumes exactly the `1 + nx + nw` SignedVarInts
that `count!(vli64, 1 + nx + nw)` would. -/
theorem assignment_array_ok (nx nw : Nat) (input : List Nat)
    (l : List Assignment) (rem : List Nat)
    (h : assignment_array nx nw input = .ok (l, rem)) :
    l.length = 1 + nx + nw ∧ l.map Assignment.idx = canonicalTags nx nw ∧
      countP vli64 (1 + nx + nw) input = .ok (l.map Assignment.val, rem) := by
  unfold assignment_array at h
  cases h1 : countP vli64 1 input with
  | error e =>
    rw [pbind_err _ _ _ _ h1] at h
    cases h
  | ok cr =>
    obtain ⟨c, r1⟩ := cr
    rw [pbind_ok _ _ _ c r1 h1] at h
    cases h2 : countP vli64 nx r1 with
    | error e =>
      rw [pbind_err _ _ _ _ h2] at h
      cases h
    | ok xr =>
      obtain ⟨x, r2⟩ := xr
      rw [pbind_ok _ _ _ x r2 h2] at h
      cases h3 : countP vli64 nw r2 with
      | error e =>
        rw [pbind_err _ _ _ _ h3] at h
        cases h
      | ok wr =>
        obtain ⟨w, r3⟩ := wr
        rw [pbind_ok _ _ _ w r3 h3] at h
        simp only [ppure, Except.ok.injEq, Prod.mk.injEq] at h
        obtain ⟨hl, hrem⟩ := h
        have hcl : c.length = 1 := countP_ok_length vli64 1 input c r1 h1
        have hxl : x.length = nx := countP_ok_length vli64 nx r1 x r2 h2
        have hwl : w.length = nw := countP_ok_length vli64 nw r2 w r3 h3
        obtain ⟨c0, rfl⟩ := List.length_eq_one.mp hcl
        subst hl hrem
        refine ⟨?_, ?_, ?_⟩
        · simp only [List.length_append, List.length_map, List.enum_length,
            List.length_cons, List.length_nil, hxl, hwl]
        · unfold canonicalTags
          rw [← hxl, ← hwl]
          simp only [List.map_append, List.map_map, List.map_cons,
            List.map_nil]
          rw [show (Assignment.idx ∘ fun jn : Nat × Int =>
            (⟨.Instance jn.1, jn.2⟩ : Assignment)) =
              (VariableIndex.Instance ∘ Prod.fst) from rfl]
          rw [show (Assignment.idx ∘ fun jn : Nat × Int =>
            (⟨.Witness jn.1, jn.2⟩ : Assignment)) =
              (VariableIndex.Witness ∘ Prod.fst) from rfl]
          rw [← List.map_map VariableIndex.Instance Prod.fst,
            ← List.map_map VariableIndex.Witness Prod.fst]
          rw [List.enum_map_fst, List.enum_map_fst]
          rfl
        · have hcomp := countP_add_ok vli64 (1 + nx) nw input (c0 :: x) r2 w
            r3 (countP_add_ok vli64 1 nx input [c0] r1 x r2 h1 h2) h3
          have hmv : (([c0].map (fun n => (⟨.Constant, n⟩ : Assignment)) ++
              (x.enum.map fun jn => (⟨.Instance jn.1, jn.2⟩ : Assignment)) ++
              (w.enum.map fun jn =>
                (⟨.Witness jn.1, jn.2⟩ : Assignment)))).map Assignment.val =
              (c0 :: x) ++ w := by
            simp only [List.map_append, List.map_map, List.map_cons,
              List.map_nil]
            rw [show (Assignment.val ∘ fun jn : Nat × Int =>
              (⟨.Instance jn.1, jn.2⟩ : Assignment)) = Prod.snd from rfl]
            rw [show (Assignment.val ∘ fun jn : Nat × Int =>
              (⟨.Witness jn.1, jn.2⟩ : Assignment)) = Prod.snd from rfl]
            rw [List.enum_map_snd, List.enum_map_snd]
            rfl
          rw [hmv]
          exact hcomp

/-- If fewer than `1 + nx + nw` SignedVarInts remain, `assignment_array`
fails, and the failure is a truncation (`Incomplete`). -/
theorem assignment_array_err (nx nw : Nat) (input : List Nat) (e : DErr)
    (h : countP vli64 (1 + nx + nw) input = .error e) :
    e = .incomplete ∧ assignment_array nx nw input = .error .incomplete := by
  have he : e = .incomplete := countP_vli64_err _ input e h
  subst he
  refine ⟨rfl, ?_⟩
  unfold assignment_array
  cases h1 : countP vli64 1 input with
  | error e1 =>
    have := countP_vli64_err 1 input e1 h1
    subst this
    exact pbind_err _ _ _ _ h1
  | ok cr =>
    obtain ⟨c, r1⟩ := cr
    rw [pbind_ok _ _ _ c r1 h1]
    cases h2 : countP vli64 nx r1 with
    | error e2 =>
      have := countP_vli64_err nx r1 e2 h2
      subst this
      exact pbind_err _ _ _ _ h2
    | ok xr =>
      obtain ⟨x, r2⟩ := xr
      rw [pbind_ok _ _ _ x r2 h2]
      cases h3 : countP vli64 nw r2 with
      | error e3 =>
        have := countP_vli64_err nw r2 e3 h3
        subst this
        exact pbind_err _ _ _ _ h3
      | ok wr =>
        obtain ⟨w, r3⟩ := wr
        exfalso
        have hcomp := countP_add_ok vli64 (1 + nx) nw input (c ++ x) r2 w r3
          (countP_add_ok vli64 1 nx input c r1 x r2 h1 h2) h3
        rw [hcomp] at h
        cases h

/-- A header sequence with at least four entries, any of whose first four
is negative, makes `Header::from_file` return the error (not panic). -/
theorem from_file_neg (v : Nat) (p m nx nw : Int) (rest : List Int)
    (h : p < 0 ∨ m < 0 ∨ nx < 0 ∨ nw < 0) :
    Header.from_file v (p :: m :: nx :: nw :: rest) = .error .error := by
  show (if p < 0 then (Except.error DErr.error : Except DErr Header)
    else if m < 0 then Except.error DErr.error
    else if nx < 0 then Except.error DErr.error
    else if nw < 0 then Except.error DErr.error
    else Except.ok
      (Header.mk v p.toNat m.toNat nx.toNat nw.toNat rest)) =
      .error .error
  rcases h with h | h | h | h
  all_goals split_ifs <;> first | rfl | omega

/-- Propagating a `Header::from_file` failure through the `header`
parser. -/
theorem headerP_err_of_from_file (input : List Nat) (v : Nat) (n : List Int)
    (r0 r1 : List Nat) (e : DErr) (h1 : vlusize input = .ok (v, r0))
    (h2 : lengthCount vli64 r0 = .ok (n, r1))
    (h3 : Header.from_file v n = .error e) : headerP input = .error e := by
  unfold headerP
  simp only [h1, h2, h3]

/-- A `header` failure is an `r1cs` failure (the magic tag is consumed
first). -/
theorem r1cs_err_of_header (buf : List Nat) (e : DErr)
    (h : headerP buf = .error e) : r1cs (RMAGIC ++ buf) = .error e := by
  unfold r1cs
  rw [pbind_ok _ _ _ () buf (tagP_rt RMAGIC buf)]
  exact pbind_err _ _ _ _ h

/-- A `header` failure is an `assignments` failure. -/
theorem assignments_err_of_header (buf : List Nat) (e : DErr)
    (h : headerP buf = .error e) : assignmentsP (AMAGIC ++ buf) = .error e := by
  unfold assignmentsP
  rw [pbind_ok _ _ _ () buf (tagP_rt AMAGIC buf)]
  exact pbind_err _ _ _ _ h

/-- Composing a successful header parse with a successful assignment array
parse. -/
theorem assignmentsP_ok_of (buf : List Nat) (h : Header) (r1 : List Nat)
    (l : List Assignment) (rem : List Nat) (hh : headerP buf = .ok (h, r1))
    (ha : assignment_array h.nx h.nw r1 = .ok (l, rem)) :
    assignmentsP (AMAGIC ++ buf) = .ok (⟨h, l⟩, rem) := by
  unfold assignmentsP
  rw [pbind_ok _ _ _ () buf (tagP_rt AMAGIC buf)]
  rw [pbind_ok _ _ _ h r1 hh]
  rw [pbind_ok _ _ _ l rem ha]
  rfl

/-- Composing a successful header parse with an assignment array failure. -/
theorem assignmentsP_err_of (buf : List Nat) (h : Header) (r1 : List Nat)
    (e : DErr) (hh : headerP buf = .ok (h, r1))
    (ha : assignment_array h.nx h.nw r1 = .error e) :
    assignmentsP (AMAGIC ++ buf) = .error e := by
  unfold assignmentsP
  rw [pbind_ok _ _ _ () buf (tagP_rt AMAGIC buf)]
  rw [pbind_ok _ _ _ h r1 hh]
  exact pbind_err _ _ _ _ ha

/-- A wrong 4-byte tag (in a buffer of at least 4 bytes) is a
`nom::Err::Error`. -/
theorem tagP_mismatch (t buf : List Nat) (hlen : t.length ≤ buf.length)
    (hne : buf.take t.length ≠ t) : tagP t buf = .error .error := by
  unfold tagP
  rw [if_neg (by omega), if_neg hne]

/-- The `assignment_array` on the raw value list `c :: xs ++ ws`: the tags are
rebuilt positionally regardless of anything the encoder's caller held. -/
theorem assignment_array_vals (c : Int) (xs ws : List Int)
    (hc : i64Range c) (hxs : ∀ k ∈ xs, i64Range k)
    (hws : ∀ k ∈ ws, i64Range k) (rest : List Nat) :
    assignment_array xs.length ws.length
      (((c :: (xs ++ ws)).map gen_vli64).flatten ++ rest) =
      .ok (canonicalAssigns c xs ws, rest) := by
  have h1 : ∀ Z, countP vli64 1 (gen_vli64 c ++ Z) = .ok ([c], Z) := by
    intro Z
    have h2 := emits_countP vli64 gen_vli64 [c]
      (by
        intro a ha
        rw [List.mem_singleton] at ha
        rw [ha]
        exact emits_vli64 c hc) Z
    simpa using h2
  unfold assignment_array
  rw [show ((c :: (xs ++ ws)).map gen_vli64).flatten =
    gen_vli64 c ++ ((xs.map gen_vli64).flatten ++
      (ws.map gen_vli64).flatten) from by
    simp [List.map_cons, List.map_append, List.flatten_cons,
      List.flatten_append]]
  simp only [List.append_assoc]
  rw [pbind_ok _ _ _ [c] _ (h1 _)]
  rw [pbind_ok _ _ _ xs _
    (emits_countP vli64 gen_vli64 xs (fun k hk => emits_vli64 k (hxs k hk)) _)]
  rw [pbind_ok _ _ _ ws rest
    (emits_countP vli64 gen_vli64 ws
      (fun k hk => emits_vli64 k (hws k hk)) rest)]
  unfold ppure canonicalAssigns
  simp

/-- The `gen_assignments` only serializes header and values; the tags held in
the `Assignment`s are invisible in the byte stream. -/
theorem gen_assignment_vals (l : List Assignment) :
    l.map gen_assignment = (l.map Assignment.val).map gen_vli64 := by
  rw [List.map_map]
  rfl

/-- Decoding the encoding of any length-consistent `Assignments` value
rebuilds the tags positionally from the header. -/
theorem decode_encode_vals (h : Header) (asg : List Assignment) (c : Int)
    (xs ws : List Int) (hh : h.wf) (hc : i64Range c)
    (hxs : ∀ k ∈ xs, i64Range k) (hws : ∀ k ∈ ws, i64Range k)
    (hx : xs.length = h.nx) (hw : ws.length = h.nw)
    (hv : asg.map Assignment.val = c :: (xs ++ ws)) :
    Assignments.decode (Assignments.encode ⟨h, asg⟩) =
      .ok ⟨h, canonicalAssigns c xs ws⟩ := by
  unfold Assignments.decode Assignments.encode gen_assignments
  dsimp only
  rw [gen_assignment_vals, hv]
  have hp : assignmentsP (AMAGIC ++ (gen_header h ++
      (((c :: (xs ++ ws)).map gen_vli64).flatten ++ []))) =
      .ok (⟨h, canonicalAssigns c xs ws⟩, []) := by
    apply assignmentsP_ok_of _ h _ _ _ (emits_headerP h hh _)
    rw [← hx, ← hw]
    exact assignment_array_vals c xs ws hc hxs hws []
  rw [show AMAGIC ++ gen_header h ++
      ((c :: (xs ++ ws)).map gen_vli64).flatten =
      AMAGIC ++ (gen_header h ++
        (((c :: (xs ++ ws)).map gen_vli64).flatten ++ [])) from by simp]
  rw [hp]

/-- One-byte emission for values up to 127. -/
theorem nat_to_bits_small (n : Nat) (h : n ≤ 127) : nat_to_bits n = [n] := by
  rw [nat_to_bits, if_neg (by omega), land127, Nat.mod_eq_of_lt (by omega)]

/-- One step of the emission loop for values above 127. -/
theorem nat_to_bits_step (n : Nat) (h : 127 < n) :
    nat_to_bits n = (128 ||| (n % 128)) :: nat_to_bits (n / 128) := by
  rw [nat_to_bits, if_pos h]

/-- The zigzag argument of `i64_to_bits`, arithmetically. -/
theorem gen_vli64_eq (n : Int) (h1 : -2 ^ 63 ≤ n) (h2 : n < 2 ^ 63) :
    gen_vli64 n =
      nat_to_bits (if 0 ≤ n then 2 * n else 2 * (-n) - 1).toNat := by
  unfold gen_vli64 i64_to_bits
  rw [zigzag_eq n h1 h2]

/-- Single-byte SignedVarInt encodings of small non-negative values. -/
theorem gen_vli64_small_pos (n : Int) (h0 : 0 ≤ n) (h : n ≤ 63) :
    gen_vli64 n = [(2 * n).toNat] := by
  rw [gen_vli64_eq n (by omega) (by omega), if_pos h0]
  exact nat_to_bits_small _ (by omega)

/-- Single-byte SignedVarInt encodings of small negative values. -/
theorem gen_vli64_small_neg (n : Int) (h0 : n < 0) (h : -64 ≤ n) :
    gen_vli64 n = [(2 * (-n) - 1).toNat] := by
  rw [gen_vli64_eq n (by omega) (by omega), if_neg (by omega)]
  exact nat_to_bits_small _ (by omega)

/-- VarInt decoding can only fail by running out of input — no overflow
failure and no continuation-count limit exist in `bits_to_usize`. -/
theorem vlusize_err (input : List Nat) (e : DErr)
    (h : vlusize input = .error e) : e = .incomplete := by
  unfold vlusize at h
  cases hr : takeGroups input with
  | ok v =>
    rw [hr] at h
    cases h
  | error e' =>
    rw [hr] at h
    cases h
    exact takeGroups_err input e hr

theorem r1cs_decode_err (buf : List Nat) (e : DErr)
    (h : r1cs buf = .error e) : R1CS.decode buf = .error e := by
  unfold R1CS.decode
  rw [h]

theorem assignments_decode_err (buf : List Nat) (e : DErr)
    (h : assignmentsP buf = .error e) : Assignments.decode buf = .error e := by
  unfold Assignments.decode
  rw [h]

theorem assignments_decode_ok (buf : List Nat) (a : Assignments)
    (rem : List Nat) (h : assignmentsP buf = .ok (a, rem)) :
    Assignments.decode buf = .ok a := by
  unfold Assignments.decode
  rw [h]

/-- The encoders never serialize an `Assignment`'s tag, so two values with
equal headers and equal per-position values have byte-identical
encodings. -/
theorem encode_tag_independent (a b : Assignments) (hh : a.hdr = b.hdr)
    (hv : a.assigns.map Assignment.val = b.assigns.map Assignment.val) :
    Assignments.encode a = Assignments.encode b := by
  unfold Assignments.encode gen_assignments
  rw [hh, gen_assignment_vals, gen_assignment_vals, hv]

/-! ## Concrete boundary byte sequences -/

theorem usize_to_bits_127 : usize_to_bits 127 = [127] := by
  unfold usize_to_bits
  exact nat_to_bits_small 127 (by norm_num)

theorem usize_to_bits_128 : usize_to_bits 128 = [128, 1] := by
  unfold usize_to_bits
  rw [nat_to_bits_step 128 (by norm_num),
    show (128 : Nat) % 128 = 0 from by norm_num,
    show (128 : Nat) / 128 = 1 from by norm_num,
    nat_to_bits_small 1 (by norm_num),
    show (128 ||| 0 : Nat) = 128 from by decide]

theorem usize_to_bits_16384 : usize_to_bits 16384 = [128, 128, 1] := by
  unfold usize_to_bits
  rw [nat_to_bits_step 16384 (by norm_num),
    show (16384 : Nat) % 128 = 0 from by norm_num,
    show (16384 : Nat) / 128 = 128 from by norm_num,
    nat_to_bits_step 128 (by norm_num),
    show (128 : Nat) % 128 = 0 from by norm_num,
    show (128 : Nat) / 128 = 1 from by norm_num,
    nat_to_bits_small 1 (by norm_num),
    show (128 ||| 0 : Nat) = 128 from by decide]

theorem i64_to_bits_zero : i64_to_bits 0 = [0] := by
  have h := gen_vli64_small_pos 0 (by norm_num) (by norm_num)
  unfold gen_vli64 at h
  simpa using h

theorem i64_to_bits_neg_one : i64_to_bits (-1) = [1] := by
  have h := gen_vli64_small_neg (-1) (by norm_num) (by norm_num)
  unfold gen_vli64 at h
  simpa using h

theorem i64_to_bits_one : i64_to_bits 1 = [2] := by
  have h := gen_vli64_small_pos 1 (by norm_num) (by norm_num)
  unfold gen_vli64 at h
  simpa using h

/-! ## Claims -/

/-- C1 (counterexample): as stated, the claim is false for `Assignments`
values whose tags are not the canonical positional ones — the encoder never
writes tags, so decode rebuilds them from position.  Here a `Witness 0` tag
comes back as `Constant`. -/
theorem C1_counterexample :
    Assignments.decode (Assignments.encode
      ⟨⟨0, 0, 0, 0, 0, []⟩, [⟨.Witness 0, 5⟩]⟩) =
      .ok ⟨⟨0, 0, 0, 0, 0, []⟩, [⟨.Constant, 5⟩]⟩ ∧
    Assignments.decode (Assignments.encode
      ⟨⟨0, 0, 0, 0, 0, []⟩, [⟨.Witness 0, 5⟩]⟩) ≠
      .ok ⟨⟨0, 0, 0, 0, 0, []⟩, [⟨.Witness 0, 5⟩]⟩ := by
  have hwf : Header.wf ⟨0, 0, 0, 0, 0, []⟩ :=
    ⟨by norm_num, by norm_num, by norm_num, by norm_num, by norm_num,
      by norm_num, fun k hk => absurd hk (List.not_mem_nil k)⟩
  have hd := decode_encode_vals ⟨0, 0, 0, 0, 0, []⟩ [⟨.Witness 0, 5⟩] 5 [] []
    hwf ⟨by norm_num, by norm_num⟩ (fun k hk => absurd hk (List.not_mem_nil k))
    (fun k hk => absurd hk (List.not_mem_nil k)) rfl rfl rfl
  refine ⟨hd, ?_⟩
  rw [hd]
  decide

/-- C1 (amended): `decode(encode(x)) == x` holds for every well-formed
`R1CS` value (header fields and variable indices representable) and every
well-formed `Assignments` value (additionally: the assignment list is the
canonical positional one of length `1 + nx + nw`, the invariant the source
documents and `decode` establishes). -/
theorem C1_roundtrip :
    (∀ r : R1CS, R1CS.wf r → R1CS.decode (R1CS.encode r) = .ok r) ∧
    (∀ a : Assignments, Assignments.wf a →
      Assignments.decode (Assignments.encode a) = .ok a) :=
  ⟨r1cs_decode_encode, assignments_decode_encode⟩

/-- C1 witness: the round trip evaluated at concrete values. -/
theorem C1_roundtrip_witness :
    R1CS.decode (R1CS.encode ⟨⟨0, 0, 0, 0, 0, []⟩, []⟩) =
      .ok ⟨⟨0, 0, 0, 0, 0, []⟩, []⟩ ∧
    Assignments.decode (Assignments.encode
      ⟨⟨0, 0, 0, 0, 0, []⟩, canonicalAssigns 1 [] []⟩) =
      .ok ⟨⟨0, 0, 0, 0, 0, []⟩, canonicalAssigns 1 [] []⟩ :=
  ⟨C1_roundtrip.1 ⟨⟨0, 0, 0, 0, 0, []⟩, []⟩
    ⟨⟨by norm_num, by norm_num, by norm_num, by norm_num, by norm_num,
      by norm_num, fun k hk => absurd hk (List.not_mem_nil k)⟩,
      by norm_num, fun c hc => absurd hc (List.not_mem_nil c)⟩,
    C1_roundtrip.2 ⟨⟨0, 0, 0, 0, 0, []⟩, canonicalAssigns 1 [] []⟩
    ⟨⟨by norm_num, by norm_num, by norm_num, by norm_num, by norm_num,
      by norm_num, fun k hk => absurd hk (List.not_mem_nil k)⟩,
      1, [], [], rfl, rfl, ⟨by norm_num, by norm_num⟩,
      fun k hk => absurd hk (List.not_mem_nil k),
      fun k hk => absurd hk (List.not_mem_nil k), rfl⟩⟩

/-- C2: the SignedVarInt codec round-trips exactly on the full `i64` range
including `i64::MIN`, with the exact small-magnitude byte sequences
`0 → [0]`, `-1 → [1]`, `1 → [2]`. -/
theorem C2_signed_roundtrip :
    (∀ n : Int, -2 ^ 63 ≤ n → n < 2 ^ 63 →
      ∀ rest, vli64 (i64_to_bits n ++ rest) = .ok (n, rest)) ∧
    i64_to_bits 0 = [0] ∧ i64_to_bits (-1) = [1] ∧ i64_to_bits 1 = [2] :=
  ⟨fun n h1 h2 rest => vli64_rt n h1 h2 rest,
    i64_to_bits_zero, i64_to_bits_neg_one, i64_to_bits_one⟩

/-- C2 witness: round trip at `i64::MIN` itself. -/
theorem C2_signed_roundtrip_witness :
    vli64 (i64_to_bits (-2 ^ 63) ++ []) = .ok (-2 ^ 63, []) :=
  C2_signed_roundtrip.1 (-2 ^ 63) (by norm_num) (by norm_num) []

/-- C3: the VarInt codec round-trips every representable unsigned integer,
with exact boundary byte sequences `127 → [127]`, `128 → [128, 1]`,
`16384 → [128, 128, 1]`. -/
theorem C3_varint_roundtrip :
    (∀ n : Nat, n < 2 ^ 64 →
      ∀ rest, vlusize (usize_to_bits n ++ rest) = .ok (n, rest)) ∧
    usize_to_bits 127 = [127] ∧ usize_to_bits 128 = [128, 1] ∧
    usize_to_bits 16384 = [128, 128, 1] :=
  ⟨fun n h rest => vlusize_rt n h rest,
    usize_to_bits_127, usize_to_bits_128, usize_to_bits_16384⟩

/-- C3 witness: round trip at the maximum representable value
`usize::MAX = 2^64 - 1`. -/
theorem C3_varint_roundtrip_witness :
    vlusize (usize_to_bits (2 ^ 64 - 1) ++ []) = .ok (2 ^ 64 - 1, []) :=
  C3_varint_roundtrip.1 (2 ^ 64 - 1) (by norm_num) []

/-- C4: on a buffer with a valid magic tag, version 0 and a header sequence
of length 0 (fewer than four entries), `Header::from_file` indexes `n[0]`
out of bounds — the decoder panics (modelled `DErr.crash`) instead of
returning a decode error, for both file formats. -/
theorem C4_short_header_crash :
    r1cs [0x52, 0x31, 0x43, 0x53, 0x00, 0x00] = .error .crash ∧
    R1CS.decode [0x52, 0x31, 0x43, 0x53, 0x00, 0x00] = .error .crash ∧
    assignmentsP [0x52, 0x31, 0x61, 0x73, 0x00, 0x00] = .error .crash ∧
    Assignments.decode [0x52, 0x31, 0x61, 0x73, 0x00, 0x00] =
      .error .crash := by
  refine ⟨by decide, ?_, by decide, ?_⟩
  · exact r1cs_decode_err _ _ (by decide)
  · exact assignments_decode_err _ _ (by decide)

/-- C5 (counterexample): a VarInt whose continuation bytes encode `2^70`
(beyond the 64-bit host width) is NOT rejected: decoding succeeds and
returns the wrapped value `64` (`2^70` with its shift masked modulo 64),
where the claim requires a decode error. -/
theorem C5_counterexample :
    vlusize [128, 128, 128, 128, 128, 128, 128, 128, 128, 128, 1] =
      .ok (64, []) ∧ (64 : Nat) ≠ 2 ^ 70 := by
  decide

/-- C5 (amended): VarInt decoding imposes no limit on the number of
continuation bytes and performs no width check at all: its only possible
failure is truncation (`Incomplete`), and whenever the continuation
framing succeeds the decode succeeds, producing the `bits_to_usize`
accumulation (which wraps modulo `2^64` with shift amounts masked modulo
64, Rust release overflow semantics) rather than an overflow error. -/
theorem C5_amended :
    (∀ (input : List Nat) (e : DErr),
      vlusize input = .error e → e = DErr.incomplete) ∧
    (∀ (input : List Nat) (bits : List Nat × Nat) (rem : List Nat),
      takeGroups input = .ok (bits, rem) →
      vlusize input = .ok (bits_to_usize bits, rem)) := by
  refine ⟨vlusize_err, ?_⟩
  intro input bits rem h
  unfold vlusize
  rw [h]

/-- C5 witness: a lone continuation byte fails as truncation; a terminated
byte decodes successfully. -/
theorem C5_amended_witness :
    DErr.incomplete = DErr.incomplete ∧
    vlusize [5] = .ok (bits_to_usize ([], 5), []) :=
  ⟨C5_amended.1 [128] .incomplete (by decide),
    C5_amended.2 [5] ([], 5) [] (by decide)⟩

/-- C6: a header whose sequence has at least four entries with any of the
first four (characteristic, degree, instance count, witness count)
negative is rejected by the header parser, and both file decoders fail on
the corresponding buffer. -/
theorem C6_negative_header :
    ∀ (buf r0 r1 : List Nat) (v : Nat) (p m nx nw : Int) (rest : List Int),
      vlusize buf = .ok (v, r0) →
      lengthCount vli64 r0 = .ok (p :: m :: nx :: nw :: rest, r1) →
      (p < 0 ∨ m < 0 ∨ nx < 0 ∨ nw < 0) →
      headerP buf = .error .error ∧
      R1CS.decode (RMAGIC ++ buf) = .error .error ∧
      Assignments.decode (AMAGIC ++ buf) = .error .error := by
  intro buf r0 r1 v p m nx nw rest h1 h2 hneg
  have hh : headerP buf = .error .error :=
    headerP_err_of_from_file buf v _ r0 r1 .error h1 h2
      (from_file_neg v p m nx nw rest hneg)
  exact ⟨hh, r1cs_decode_err _ _ (r1cs_err_of_header buf _ hh),
    assignments_decode_err _ _ (assignments_err_of_header buf _ hh)⟩

/-- C6 witness: version 0, four header entries decoding to
`[-1, 1, 1, 1]` — a negative characteristic. -/
theorem C6_negative_header_witness :
    headerP [0, 4, 1, 2, 2, 2] = .error .error ∧
    R1CS.decode (RMAGIC ++ [0, 4, 1, 2, 2, 2]) = .error .error ∧
    Assignments.decode (AMAGIC ++ [0, 4, 1, 2, 2, 2]) = .error .error :=
  C6_negative_header [0, 4, 1, 2, 2, 2] [4, 1, 2, 2, 2] [] 0 (-1) 1 1 1 []
    (by decide) (by decide) (Or.inl (by norm_num))

/-- C7: a well-formed header round-trips through encode/decode exactly —
in particular every `_ignored` entry beyond the four known fields is
preserved verbatim, and `to_file` places those extras immediately after the
four known fields. -/
theorem C7_header_extras :
    ∀ h : Header, Header.wf h →
      (∀ rest, headerP (gen_header h ++ rest) = .ok (h, rest)) ∧
      h.to_file.2.drop 4 = h.ignored := by
  intro h hw
  exact ⟨emits_headerP h hw, rfl⟩

/-- C7 witness: a header with two extra trailing entries `[5, -7]`. -/
theorem C7_header_extras_witness :
    headerP (gen_header ⟨0, 1, 1, 0, 0, [5, -7]⟩ ++ []) =
      .ok (⟨0, 1, 1, 0, 0, [5, -7]⟩, []) ∧
    (Header.to_file ⟨0, 1, 1, 0, 0, [5, -7]⟩).2.drop 4 = [5, -7] := by
  have h := C7_header_extras ⟨0, 1, 1, 0, 0, [5, -7]⟩
    ⟨by norm_num, by norm_num, by norm_num, by norm_num, by norm_num,
      by norm_num, by
        intro k hk
        simp only [List.mem_cons, List.not_mem_nil, or_false] at hk
        rcases hk with rfl | rfl
        · exact ⟨by norm_num, by norm_num⟩
        · exact ⟨by norm_num, by norm_num⟩⟩
  exact ⟨h.1 [], h.2⟩

/-- C8: with a valid magic tag and a parsed header declaring `nx`/`nw`, the
assignments decoder consumes exactly `1 + nx + nw` SignedVarInts, tagging
them `Constant`, `Instance(0..nx)`, `Witness(0..nw)` by position; if fewer
than `1 + nx + nw` integers remain, decoding fails with the truncation
error. -/
theorem C8_assignment_shape :
    ∀ (buf r1 : List Nat) (h : Header),
      headerP buf = .ok (h, r1) →
      (∀ (l : List Assignment) (rem : List Nat),
        assignment_array h.nx h.nw r1 = .ok (l, rem) →
        assignmentsP (AMAGIC ++ buf) = .ok (⟨h, l⟩, rem) ∧
        l.length = 1 + h.nx + h.nw ∧
        l.map Assignment.idx = canonicalTags h.nx h.nw ∧
        countP vli64 (1 + h.nx + h.nw) r1 = .ok (l.map Assignment.val, rem)) ∧
      (∀ e : DErr, countP vli64 (1 + h.nx + h.nw) r1 = .error e →
        e = .incomplete ∧
        assignmentsP (AMAGIC ++ buf) = .error .incomplete ∧
        Assignments.decode (AMAGIC ++ buf) = .error .incomplete) := by
  intro buf r1 h hh
  constructor
  · intro l rem ha
    obtain ⟨h1, h2, h3⟩ := assignment_array_ok h.nx h.nw r1 l rem ha
    exact ⟨assignmentsP_ok_of buf h r1 l rem hh ha, h1, h2, h3⟩
  · intro e he
    obtain ⟨h1, h2⟩ := assignment_array_err h.nx h.nw r1 e he
    have h3 := assignmentsP_err_of buf h r1 .incomplete hh h2
    exact ⟨h1, h3, assignments_decode_err _ _ h3⟩

/-- C8 witness: header `(p,m,nx,nw) = (1,1,1,1)` followed by the three
values `1, 2, 3`, which come back as constant, instance 0, witness 0. -/
theorem C8_assignment_shape_witness :
    assignmentsP (AMAGIC ++ [0, 4, 2, 2, 2, 2, 2, 4, 6]) =
      .ok (⟨⟨0, 1, 1, 1, 1, []⟩,
        [⟨.Constant, 1⟩, ⟨.Instance 0, 2⟩, ⟨.Witness 0, 3⟩]⟩, []) ∧
    ([⟨.Constant, 1⟩, ⟨.Instance 0, 2⟩,
      (⟨.Witness 0, 3⟩ : Assignment)]).length = 1 + 1 + 1 ∧
    ([⟨.Constant, 1⟩, ⟨.Instance 0, 2⟩,
      (⟨.Witness 0, 3⟩ : Assignment)]).map Assignment.idx =
      canonicalTags 1 1 ∧
    countP vli64 (1 + 1 + 1) [2, 4, 6] =
      .ok (([⟨.Constant, 1⟩, ⟨.Instance 0, 2⟩,
        (⟨.Witness 0, 3⟩ : Assignment)]).map Assignment.val, []) :=
  (C8_assignment_shape [0, 4, 2, 2, 2, 2, 2, 4, 6] [2, 4, 6]
    ⟨0, 1, 1, 1, 1, []⟩ (by decide)).1
    [⟨.Constant, 1⟩, ⟨.Instance 0, 2⟩, ⟨.Witness 0, 3⟩] [] (by decide)

/-- C9: a buffer whose first four bytes differ from the expected magic tag
is rejected by both decoders, and every encoded value starts with the
canonical 4-byte magic tag. -/
theorem C9_magic :
    (∀ buf : List Nat, 4 ≤ buf.length → buf.take 4 ≠ RMAGIC →
      R1CS.decode buf = .error .error) ∧
    (∀ buf : List Nat, 4 ≤ buf.length → buf.take 4 ≠ AMAGIC →
      Assignments.decode buf = .error .error) ∧
    (∀ r : R1CS, (R1CS.encode r).take 4 = RMAGIC) ∧
    (∀ a : Assignments, (Assignments.encode a).take 4 = AMAGIC) := by
  refine ⟨?_, ?_, ?_, ?_⟩
  · intro buf hlen hne
    apply r1cs_decode_err
    unfold r1cs
    exact pbind_err _ _ _ _ (tagP_mismatch RMAGIC buf
      (by rw [show RMAGIC.length = 4 from rfl]; exact hlen)
      (by rw [show RMAGIC.length = 4 from rfl]; exact hne))
  · intro buf hlen hne
    apply assignments_decode_err
    unfold assignmentsP
    exact pbind_err _ _ _ _ (tagP_mismatch AMAGIC buf
      (by rw [show AMAGIC.length = 4 from rfl]; exact hlen)
      (by rw [show AMAGIC.length = 4 from rfl]; exact hne))
  · intro r
    unfold R1CS.encode gen_r1cs
    simp only [List.append_assoc]
    rw [show (4 : Nat) = RMAGIC.length from rfl]
    simp
  · intro a
    unfold Assignments.encode gen_assignments
    simp only [List.append_assoc]
    rw [show (4 : Nat) = AMAGIC.length from rfl]
    simp

/-- C9 witness: a zero prefix is rejected by both decoders; concrete values
encode with the canonical tags in front. -/
theorem C9_magic_witness :
    R1CS.decode [0, 0, 0, 0, 0] = .error .error ∧
    Assignments.decode [1, 2, 3, 4] = .error .error ∧
    (R1CS.encode ⟨⟨0, 0, 0, 0, 0, []⟩, []⟩).take 4 = RMAGIC ∧
    (Assignments.encode ⟨⟨0, 0, 0, 0, 0, []⟩, []⟩).take 4 = AMAGIC :=
  ⟨C9_magic.1 [0, 0, 0, 0, 0] (by norm_num) (by decide),
    C9_magic.2.1 [1, 2, 3, 4] (by norm_num) (by decide),
    C9_magic.2.2.1 ⟨⟨0, 0, 0, 0, 0, []⟩, []⟩,
    C9_magic.2.2.2 ⟨⟨0, 0, 0, 0, 0, []⟩, []⟩⟩

/-- C10: the Assignments encoder writes only each entry's signed value,
never its `VariableIndex` tag — equal headers and equal per-position values
give byte-identical encodings regardless of tags — and decode rebuilds the
tags purely from position. -/
theorem C10_tags_not_serialized :
    (∀ a b : Assignments, a.hdr = b.hdr →
      a.assigns.map Assignment.val = b.assigns.map Assignment.val →
      Assignments.encode a = Assignments.encode b) ∧
    (∀ (h : Header) (asg : List Assignment) (c : Int) (xs ws : List Int),
      Header.wf h → i64Range c → (∀ k ∈ xs, i64Range k) →
      (∀ k ∈ ws, i64Range k) → xs.length = h.nx → ws.length = h.nw →
      asg.map Assignment.val = c :: (xs ++ ws) →
      Assignments.decode (Assignments.encode ⟨h, asg⟩) =
        .ok ⟨h, canonicalAssigns c xs ws⟩) :=
  ⟨encode_tag_independent, decode_encode_vals⟩

/-- C10 witness: a bogus `Witness 3` tag encodes identically to a
`Constant` tag and decodes back as `Constant`. -/
theorem C10_tags_not_serialized_witness :
    Assignments.encode ⟨⟨0, 0, 0, 0, 0, []⟩, [⟨.Witness 3, 7⟩]⟩ =
      Assignments.encode ⟨⟨0, 0, 0, 0, 0, []⟩, [⟨.Constant, 7⟩]⟩ ∧
    Assignments.decode (Assignments.encode
      ⟨⟨0, 0, 0, 0, 0, []⟩, [⟨.Witness 3, 7⟩]⟩) =
      .ok ⟨⟨0, 0, 0, 0, 0, []⟩, canonicalAssigns 7 [] []⟩ :=
  ⟨C10_tags_not_serialized.1 ⟨⟨0, 0, 0, 0, 0, []⟩, [⟨.Witness 3, 7⟩]⟩
      ⟨⟨0, 0, 0, 0, 0, []⟩, [⟨.Constant, 7⟩]⟩ rfl rfl,
    C10_tags_not_serialized.2 ⟨0, 0, 0, 0, 0, []⟩ [⟨.Witness 3, 7⟩] 7 [] []
      ⟨by norm_num, by norm_num, by norm_num, by norm_num, by norm_num,
        by norm_num, fun k hk => absurd hk (List.not_mem_nil k)⟩
      ⟨by norm_num, by norm_num⟩
      (fun k hk => absurd hk (List.not_mem_nil k))
      (fun k hk => absurd hk (List.not_mem_nil k)) rfl rfl rfl⟩

end ZK
